import Mathlib

/-!
Shallow embedding of the transport `Core` of libclub
(`src/club/transport/core.h`) and proofs about its operations.

The embedding models the single-threaded state of `Core<UnreliableId>`:
the outbound retention registry `_messages`, the per-remote `Target`
receive state (optional sync, pending reorder buffer), the relay set,
the sequence counters and the flush callback.  `uuid` is modelled as
`Nat`, `SequenceNumber` as `Nat` with explicit `% 2^32` where the C++
`uint32_t` arithmetic can wrap, payloads as lists of bytes.

Collaborator types whose headers are not part of the sources here
(`AckSet`, `PendingMessage`, `OutMessage` mutators, the `Relay`
contract, `OutboundAcks`) are modelled from the specification and are
marked as such in their doc comments.  Application callbacks
(`_on_recv`, `_on_flush`) and the outbound-ack aggregator are modelled
as ghost event logs appended by the corresponding calls.
-/

namespace Club

/-- Node identifier (128-bit uuid in the source); modelled as `Nat`. -/
abbrev Uuid := Nat

/-- Bytes of a payload. -/
abbrev Byte := Nat

/-- A message payload (`std::vector<uint8_t>`). -/
abbrev Payload := List Byte

/-- The user-supplied key type of unreliable broadcasts
(the `UnreliableId` template parameter); fixed to `Nat`. -/
abbrev UnreliableId := Nat

/-- Modulus of the 32-bit `SequenceNumber` arithmetic. -/
def W32 : Nat := 2 ^ 32

/-- The `uint32_t` increment `sn + 1`. -/
def add1 (sn : Nat) : Nat := (sn + 1) % W32

/-- The `uint32_t` decrement `sn - 1` (wraps at zero). -/
def sub1 (sn : Nat) : Nat := (sn + (W32 - 1)) % W32

/-! Association-list helpers standing in for `std::map`.  No claim
depends on the key iteration order of `_messages` or `_targets`, so a
plain association list with first-occurrence lookup is used; the
`pending` reorder buffer, whose iteration order does matter, is kept
sorted by a dedicated insertion function further down. -/

/-- Lookup of the first entry with the given key. -/
def lookupA {κ α : Type} [DecidableEq κ] : List (κ × α) → κ → Option α
  | [], _ => none
  | (k', v) :: rest, k => if k' = k then some v else lookupA rest k

/-- Erase the first entry with the given key. -/
def eraseA {κ α : Type} [DecidableEq κ] : List (κ × α) → κ → List (κ × α)
  | [], _ => []
  | (k', v) :: rest, k => if k' = k then rest else (k', v) :: eraseA rest k

/-- Replace the value of the first entry with the given key. -/
def setA {κ α : Type} [DecidableEq κ] : List (κ × α) → κ → α → List (κ × α)
  | [], _, _ => []
  | (k', v') :: rest, k, v =>
    if k' = k then (k, v) :: rest else (k', v') :: setA rest k v

/-- The `std::map::emplace` insertion: no effect when the key is present. -/
def emplaceA {κ α : Type} [DecidableEq κ] (m : List (κ × α)) (k : κ) (v : α) :
    List (κ × α) :=
  match lookupA m k with
  | some _ => m
  | none => m ++ [(k, v)]

/-- Keys of a map, in entry order (`Core::keys`). -/
def keysOf {κ α : Type} (m : List (κ × α)) : List κ := m.map Prod.fst

theorem lookupA_ne {κ α : Type} [DecidableEq κ] (l : List (κ × α)) (k k' : κ)
    (v : α) (h : k' ≠ k) : lookupA (setA l k v) k' = lookupA l k' := by
  induction l with
  | nil => rfl
  | cons p rest ih =>
    obtain ⟨pk, pv⟩ := p
    by_cases hpk : pk = k
    · subst hpk
      simp [lookupA, setA, Ne.symm h]
    · simp only [setA, if_neg hpk, lookupA]
      by_cases hpk' : pk = k'
      · simp [hpk']
      · simp [hpk', ih]

theorem lookupA_eraseA_ne {κ α : Type} [DecidableEq κ] (l : List (κ × α))
    (k k' : κ) (h : k' ≠ k) : lookupA (eraseA l k) k' = lookupA l k' := by
  induction l with
  | nil => rfl
  | cons p rest ih =>
    obtain ⟨pk, pv⟩ := p
    by_cases hpk : pk = k
    · subst hpk
      simp [eraseA, lookupA, Ne.symm h]
    · simp only [eraseA, if_neg hpk, lookupA]
      by_cases hpk' : pk = k'
      · simp [hpk']
      · simp [hpk', ih]

theorem lookupA_setA_self {κ α : Type} [DecidableEq κ] (l : List (κ × α))
    (k : κ) (v w : α) (h : lookupA l k = some w) :
    lookupA (setA l k v) k = some v := by
  induction l with
  | nil => simp [lookupA] at h
  | cons p rest ih =>
    obtain ⟨pk, pv⟩ := p
    by_cases hpk : pk = k
    · simp [setA, hpk, lookupA]
    · simp only [lookupA, if_neg hpk] at h
      simp [setA, hpk, lookupA, ih h]

theorem lookupA_append_right {κ α : Type} [DecidableEq κ] (l : List (κ × α))
    (k : κ) (v : α) (h : lookupA l k = none) :
    lookupA (l ++ [(k, v)]) k = some v := by
  induction l with
  | nil => simp [lookupA]
  | cons p rest ih =>
    obtain ⟨pk, pv⟩ := p
    by_cases hpk : pk = k
    · simp [lookupA, hpk] at h
    · simp only [lookupA, if_neg hpk] at h
      simp [lookupA, hpk, ih h]

theorem lookupA_mem {κ α : Type} [DecidableEq κ] (l : List (κ × α)) (k : κ)
    (v : α) (h : lookupA l k = some v) : (k, v) ∈ l := by
  induction l with
  | nil => simp [lookupA] at h
  | cons p rest ih =>
    obtain ⟨pk, pv⟩ := p
    by_cases hpk : pk = k
    · subst hpk
      simp [lookupA] at h
      simp [h]
    · simp only [lookupA, if_neg hpk] at h
      exact List.mem_cons_of_mem _ (ih h)

theorem mem_setA {κ α : Type} [DecidableEq κ] (l : List (κ × α)) (k : κ)
    (v : α) (p : κ × α) (h : p ∈ setA l k v) : p = (k, v) ∨ p ∈ l := by
  induction l with
  | nil => simp [setA] at h
  | cons q rest ih =>
    obtain ⟨qk, qv⟩ := q
    by_cases hqk : qk = k
    · simp only [setA, if_pos hqk, List.mem_cons] at h
      rcases h with h | h
      · exact Or.inl h
      · exact Or.inr (List.mem_cons_of_mem _ h)
    · simp only [setA, if_neg hqk, List.mem_cons] at h
      rcases h with h | h
      · exact Or.inr (by simp [h])
      · rcases ih h with h' | h'
        · exact Or.inl h'
        · exact Or.inr (List.mem_cons_of_mem _ h')

/-! The `AckSet` (file `transport/ack_set.h` is not among the sources;
modelled from the specification, section 4.1). -/

/-- The ack-set tag (`AckSet::Type`). -/
inductive AckType where
  | broadcast
  | unicast
deriving DecidableEq

/-- Window width `W` of an `AckSet` (spec: typical `W = 32`). -/
def ackWindow : Nat := 32

/-- Modelled from the spec: `AckSet` — a highest acknowledged sequence
number `hi` plus a bitmask of up to `ackWindow` preceding slots; bit
`j` of `mask` records that `hi - 1 - j` is acknowledged. -/
structure AckSet where
  type : AckType
  hi : Nat
  mask : Nat
deriving DecidableEq

/-- Modelled from the spec: `AckSet(type, seed)` initializes with
`hi = seed` and an empty bitmask (the seed itself counts as acked). -/
def AckSet.new (t : AckType) (seed : Nat) : AckSet := ⟨t, seed, 0⟩

/-- Modelled from the spec: `can_add(sn)` holds iff `sn` is future or
within the window, i.e. `sn > hi - W` (without `Nat` underflow). -/
def AckSet.can_add (s : AckSet) (sn : Nat) : Bool := decide (s.hi < sn + ackWindow)

/-- Membership of `sn` in the acknowledged set. -/
def AckSet.isAcked (s : AckSet) (sn : Nat) : Bool :=
  decide (sn = s.hi) ||
    (decide (sn < s.hi) && Nat.testBit s.mask (s.hi - sn - 1))

/-- Modelled from the spec: `try_add(sn)` — `false` when `sn` is below
the window or already present; otherwise inserts `sn`, shifting the
window forward (and dropping bits that fall off) when `sn > hi`. -/
def AckSet.try_add (s : AckSet) (sn : Nat) : Bool × AckSet :=
  if s.can_add sn = false then (false, s)
  else if s.hi < sn then
    (true, { s with
              hi := sn
              mask := ((s.mask <<< (sn - s.hi)) ||| (1 <<< (sn - s.hi - 1)))
                        % 2 ^ ackWindow })
  else if s.isAcked sn then (false, s)
  else (true, { s with mask := s.mask ||| (1 <<< (s.hi - sn - 1)) })

/-- Modelled from the spec: iteration over an `AckSet` yields the
acknowledged sequence numbers of the window in ascending order. -/
def AckSet.toList (s : AckSet) : List Nat :=
  (List.range (ackWindow + 1)).filterMap (fun j =>
    if s.hi + j < ackWindow then none
    else
      let sn := s.hi + j - ackWindow
      if s.isAcked sn then some sn else none)

theorem AckSet.try_add_false {s : AckSet} {sn : Nat}
    (h : (s.try_add sn).1 = false) : (s.try_add sn).2 = s := by
  unfold AckSet.try_add at *
  by_cases h1 : s.can_add sn = false
  · simp [h1]
  · simp only [if_neg h1] at h ⊢
    by_cases h2 : s.hi < sn
    · simp [h2] at h
    · simp only [if_neg h2] at h ⊢
      by_cases h3 : s.isAcked sn
      · simp [h3]
      · simp [h3] at h

theorem AckSet.try_add_hi_ge {s : AckSet} {sn : Nat} :
    s.hi ≤ (s.try_add sn).2.hi := by
  unfold AckSet.try_add
  by_cases h1 : s.can_add sn = false
  · simp [h1]
  · simp only [if_neg h1]
    by_cases h2 : s.hi < sn
    · simp [h2]
      omega
    · simp only [if_neg h2]
      by_cases h3 : s.isAcked sn <;> simp [h3]

theorem AckSet.try_add_hi_ge_sn {s : AckSet} {sn : Nat}
    (h : (s.try_add sn).1 = true) : sn ≤ (s.try_add sn).2.hi := by
  unfold AckSet.try_add at *
  by_cases h1 : s.can_add sn = false
  · simp [h1] at h
  · simp only [if_neg h1] at h ⊢
    by_cases h2 : s.hi < sn
    · simp [h2]
    · simp only [if_neg h2] at h ⊢
      by_cases h3 : s.isAcked sn
      · simp [h3] at h
      · simp [h3]
        omega

theorem AckSet.try_add_can_add {s : AckSet} {sn : Nat}
    (h : (s.try_add sn).1 = true) : s.hi < sn + ackWindow := by
  unfold AckSet.try_add at h
  by_cases h1 : s.can_add sn = false
  · simp [h1] at h
  · simp only [AckSet.can_add, decide_eq_false_iff_not, Decidable.not_not] at h1
    exact h1

theorem AckSet.try_add_type {s : AckSet} {sn : Nat} :
    (s.try_add sn).2.type = s.type := by
  unfold AckSet.try_add
  by_cases h1 : s.can_add sn = false
  · simp [h1]
  · simp only [if_neg h1]
    by_cases h2 : s.hi < sn
    · simp [h2]
    · simp only [if_neg h2]
      by_cases h3 : s.isAcked sn <;> simp [h3]

/-! Message types and identifiers (`message_id.h`, `message_type.h` are
not among the sources; the constructors and fields follow the uses in
`core.h` and the specification, sections 2 and 3). -/

/-- Wire discriminator of a message (`MessageType`). -/
inductive MessageType where
  | reliable_broadcast
  | unreliable_broadcast
  | syn
deriving DecidableEq

/-- The tagged `MessageId` keying the retention registry
(`ReliableBroadcastId`, `ReliableUnicastId`, `UnreliableBroadcastId`,
`ForwardId`). -/
inductive MessageId where
  | reliableBroadcast (sn : Nat)
  | reliableUnicast (dest : Uuid) (sn : Nat)
  | unreliableBroadcast (key : UnreliableId)
  | forwardId
deriving DecidableEq

/-- Outbound message state (`transport/out_message.h`, fields as
constructed and used in `core.h`): immutable source, reliability flag,
type and sequence number; mutable remaining-target set and payload. -/
structure OutMessage where
  source : Uuid
  targets : List Uuid
  reliable : Bool
  type : MessageType
  sequence_number : Nat
  payload : Payload
deriving DecidableEq

/-- Modelled from the spec: `OutMessage::reset_payload` replaces the
payload in place (used by coalescing unreliable broadcasts). -/
def OutMessage.reset_payload (m : OutMessage) (data : Payload) : OutMessage :=
  { m with payload := data }

/-- A fully assembled inbound message (`transport/in_message_full.h`,
fields as used in `core.h`). -/
structure InMessageFull where
  source : Uuid
  type : MessageType
  sequence_number : Nat
  original_size : Nat
  payload : Payload
deriving DecidableEq

/-- A part of an inbound message (`transport/in_message_part.h`):
carries the chunk offset within the original message. -/
structure InMessagePart where
  source : Uuid
  type : MessageType
  sequence_number : Nat
  original_size : Nat
  chunk_start : Nat
  payload : Payload
deriving DecidableEq

/-- Modelled from the spec: a part is full when it covers the entire
original message `[0, original_size)`. -/
def InMessagePart.is_full (m : InMessagePart) : Bool :=
  decide (m.chunk_start = 0) && decide (m.payload.length = m.original_size)

/-- The `InMessageFull` built from a covering part
(`on_receive_part`, lines 431-435 of `core.h`). -/
def InMessagePart.toFull (m : InMessagePart) : InMessageFull :=
  ⟨m.source, m.type, m.sequence_number, m.original_size, m.payload⟩

/-! The reassembly buffer (`transport/pending_message.h` is not among
the sources; modelled from the specification: a buffer for an in-flight
inbound message that accepts byte ranges and yields the full message
once every byte of `[0, original_size)` has been received). -/

/-- Write `bytes` into an option-buffer at offset `start`. -/
def writeAt : List (Option Byte) → Nat → Payload → List (Option Byte)
  | [], _, _ => []
  | buf, _, [] => buf
  | _ :: rest, 0, x :: xs => some x :: writeAt rest 0 xs
  | b :: rest, s + 1, bytes => b :: writeAt rest s bytes

/-- Extraction of a fully populated option-buffer. -/
def allSome : List (Option Byte) → Option Payload
  | [] => some []
  | none :: _ => none
  | some b :: rest => (allSome rest).map (b :: ·)

/-- Modelled from the spec: `PendingMessage` — reassembly state of one
inbound message. -/
structure PendingMessage where
  source : Uuid
  type : MessageType
  sequence_number : Nat
  original_size : Nat
  buf : List (Option Byte)
deriving DecidableEq

/-- Construction from a message part. -/
def PendingMessage.ofPart (m : InMessagePart) : PendingMessage :=
  ⟨m.source, m.type, m.sequence_number, m.original_size,
    writeAt (List.replicate m.original_size none) m.chunk_start m.payload⟩

/-- Construction from a full message. -/
def PendingMessage.ofFull (m : InMessageFull) : PendingMessage :=
  ⟨m.source, m.type, m.sequence_number, m.original_size, m.payload.map some⟩

/-- Modelled from the spec: `update_payload(chunk_start, payload)`
merges one more byte range into the buffer. -/
def PendingMessage.update_payload (pm : PendingMessage) (start : Nat)
    (bytes : Payload) : PendingMessage :=
  { pm with buf := writeAt pm.buf start bytes }

/-- Modelled from the spec: `get_full_message()` yields the assembled
message once the buffer is fully populated. -/
def PendingMessage.get_full_message (pm : PendingMessage) : Option InMessageFull :=
  match allSome pm.buf with
  | some bytes =>
    some ⟨pm.source, pm.type, pm.sequence_number, pm.original_size, bytes⟩
  | none => none

theorem allSome_map_some (l : Payload) : allSome (l.map some) = some l := by
  induction l with
  | nil => rfl
  | cons b rest ih => simp [allSome, ih]

theorem get_full_ofFull (m : InMessageFull) :
    (PendingMessage.ofFull m).get_full_message = some m := by
  simp [PendingMessage.ofFull, PendingMessage.get_full_message, allSome_map_some]

theorem writeAt_cover (p : Payload) :
    ∀ (buf : List (Option Byte)), p.length = buf.length →
      writeAt buf 0 p = p.map some := by
  induction p with
  | nil =>
    intro buf h
    match buf with
    | [] => rfl
    | b :: rest => simp at h
  | cons x xs ih =>
    intro buf h
    match buf with
    | [] => simp at h
    | b :: rest =>
      simp only [List.length_cons] at h
      simp [writeAt, ih rest (by omega)]

/-! The relay collaborator (`transport/relay.h` is not among the
sources; modelled from the specification, section 4.8: identity of the
directly connected peer, the destination set, a transmit queue fed by
`insert_message`, and the `is_sending` flag). -/

/-- Modelled from the spec: the per-link relay state visible to `Core`.
The transmit queue records the `MessageId`s passed to `insert_message`,
in call order. -/
structure RelayC where
  relay_id : Uuid
  rtargets : List Uuid
  queue : List MessageId
  sending : Bool
deriving DecidableEq

/-- Modelled from the spec: `Relay::add_target` accepts responsibility
for a destination and returns whether the target was newly added. -/
def RelayC.add_target (r : RelayC) (t : Uuid) : Bool × RelayC :=
  if t ∈ r.rtargets then (false, r)
  else (true, { r with rtargets := r.rtargets ++ [t] })

/-- Modelled from the spec: `Relay::insert_message` enqueues a strong
reference for transmission; the queue records the id. -/
def RelayC.insert_message (r : RelayC) (mid : MessageId) : RelayC :=
  { r with queue := r.queue ++ [mid] }

/-- An entry of the retention registry `_messages`: the registry holds
a `std::weak_ptr`; `live` records whether locking it still succeeds
(the strong owners are the relay queues). -/
structure MEntry where
  live : Bool
  msg : OutMessage
deriving DecidableEq

/-- Per-sender receive synchronisation (`Core::Target::Sync`). -/
structure Sync where
  last_executed_message : Nat
  acks : AckSet
deriving DecidableEq

/-- Per-remote-peer receive state (`Core::Target`). -/
structure Target where
  sync : Option Sync
  pending : List (Nat × PendingMessage)
deriving DecidableEq

/-- A freshly constructed `Target()`. -/
def Target.new : Target := ⟨none, []⟩

/-- Delivery event of the application callback `_on_recv`; the message
type and sequence number are ghost instrumentation recording which
branch delivered. -/
structure DeliverEv where
  source : Uuid
  type : MessageType
  sequence_number : Nat
  payload : Payload
deriving DecidableEq

/-- The `Core<UnreliableId>` state.  `_on_recv` calls are logged in
`delivered`, `_outbound_acks.acknowledge` calls in `ackLog` (modelled
from the spec: the `OutboundAcks` aggregator is abstracted as the log
of acknowledge events), and fired `_on_flush` callbacks (named by a
`Nat` tag) in `flushed`. -/
structure Core where
  our_id : Uuid
  next_reliable_broadcast_number : Nat
  next_message_number : Nat
  relays : List RelayC
  messages : List (MessageId × MEntry)
  on_flush : Option Nat
  targets : List (Uuid × Target)
  ackLog : List (Uuid × AckType × Nat)
  delivered : List DeliverEv
  flushed : List Nat
deriving DecidableEq

/-- `_outbound_acks.acknowledge(source, type, sn)` as an event. -/
def Core.acknowledgeSn (c : Core) (source : Uuid) (t : AckType) (sn : Nat) :
    Core :=
  { c with ackLog := c.ackLog ++ [(source, t, sn)] }

/-- `Core::acknowledge(const InMessageFull&)` (lines 211-224): maps the
message type to the ack type; the `default` branch asserts and returns
without acknowledging. -/
def Core.acknowledgeMsg (c : Core) (m : InMessageFull) : Core :=
  match m.type with
  | .reliable_broadcast => c.acknowledgeSn m.source .broadcast m.sequence_number
  | .syn => c.acknowledgeSn m.source .unicast m.sequence_number
  | .unreliable_broadcast => c

/-- The `_on_recv` callback, as a ghost log append. -/
def Core.deliver (c : Core) (src : Uuid) (ty : MessageType) (sn : Nat)
    (p : Payload) : Core :=
  { c with delivered := c.delivered ++ [⟨src, ty, sn, p⟩] }

/-- Write back the `Target` of one source. -/
def Core.setTarget (c : Core) (src : Uuid) (t : Target) : Core :=
  { c with targets := setA c.targets src t }

/-- Sorted insertion into the `pending` reorder buffer (`std::map`
iteration is in ascending key order). -/
def insertPendingSorted : List (Nat × PendingMessage) → Nat → PendingMessage →
    List (Nat × PendingMessage)
  | [], k, pm => [(k, pm)]
  | (k', pm') :: rest, k, pm =>
    if k < k' then (k, pm) :: (k', pm') :: rest
    else (k', pm') :: insertPendingSorted rest k pm

theorem mem_insertPendingSorted (l : List (Nat × PendingMessage)) (k : Nat)
    (pm : PendingMessage) (p : Nat × PendingMessage)
    (h : p ∈ insertPendingSorted l k pm) : p = (k, pm) ∨ p ∈ l := by
  induction l with
  | nil =>
    simp [insertPendingSorted] at h
    exact Or.inl h
  | cons q rest ih =>
    obtain ⟨qk, qpm⟩ := q
    by_cases hlt : k < qk
    · simp only [insertPendingSorted, if_pos hlt, List.mem_cons] at h
      rcases h with h | h | h
      · exact Or.inl h
      · exact Or.inr (by simp [h])
      · exact Or.inr (List.mem_cons_of_mem _ h)
    · simp only [insertPendingSorted, if_neg hlt, List.mem_cons] at h
      rcases h with h | h
      · exact Or.inr (by simp [h])
      · rcases ih h with h' | h'
        · exact Or.inl h'
        · exact Or.inr (List.mem_cons_of_mem _ h')

/-- `Core::add_to_pending(Target&, InMessageFull&&)` (lines 411-425):
create the entry or merge into the existing one; returns the updated
target and the referenced pending message. -/
def addToPendingFull (node : Target) (m : InMessageFull) :
    Target × PendingMessage :=
  match lookupA node.pending m.sequence_number with
  | some pm =>
    let pm' := pm.update_payload 0 m.payload
    ({ node with pending := setA node.pending m.sequence_number pm' }, pm')
  | none =>
    let pm' := PendingMessage.ofFull m
    ({ node with pending := insertPendingSorted node.pending m.sequence_number pm' },
      pm')

/-- `Core::add_to_pending(Target&, InMessagePart&&)` (lines 395-409). -/
def addToPendingPart (node : Target) (m : InMessagePart) :
    Target × PendingMessage :=
  match lookupA node.pending m.sequence_number with
  | some pm =>
    let pm' := pm.update_payload m.chunk_start m.payload
    ({ node with pending := setA node.pending m.sequence_number pm' }, pm')
  | none =>
    let pm' := PendingMessage.ofPart m
    ({ node with pending := insertPendingSorted node.pending m.sequence_number pm' },
      pm')

/-! The `Core` operations. -/

/-- `Core::replay_pending_messages` (lines 523-555): walk `pending` in
ascending order; erase entries at or below `last_executed_message`,
stop at the first gap or partial entry, and for each contiguous fully
assembled entry acknowledge, deliver and advance.  Returns the updated
core (logs), the new `last_executed_message` and the remaining
`pending`. -/
def replayLoop (c : Core) (le : Nat) :
    List (Nat × PendingMessage) → Core × Nat × List (Nat × PendingMessage)
  | [] => (c, le, [])
  | (k, pm) :: rest =>
    if k ≤ le then replayLoop c le rest
    else if k ≠ add1 le then (c, le, (k, pm) :: rest)
    else
      match pm.get_full_message with
      | some msg =>
        let c1 := (c.acknowledgeMsg msg).deliver msg.source msg.type
                    msg.sequence_number msg.payload
        replayLoop c1 (add1 le) rest
      | none => (c, le, (k, pm) :: rest)

/-- `Core::on_receive_full` (lines 456-520). -/
def Core.on_receive_full (c : Core) (msg : InMessageFull) : Core :=
  match lookupA c.targets msg.source with
  | none => c
  | some node =>
    match msg.type with
    | .reliable_broadcast =>
      match node.sync with
      | none => c
      | some sy =>
        let ta := sy.acks.try_add msg.sequence_number
        let acks' := ta.2
        if ta.1 then
          if msg.sequence_number = add1 sy.last_executed_message then
            let c1 := (c.acknowledgeMsg msg).deliver msg.source msg.type
                        msg.sequence_number msg.payload
            let r := replayLoop c1 msg.sequence_number node.pending
            r.1.setTarget msg.source
              ⟨some ⟨r.2.1, acks'⟩, r.2.2⟩
          else if add1 sy.last_executed_message < msg.sequence_number then
            let node1 : Target := ⟨some ⟨sy.last_executed_message, acks'⟩,
                                    node.pending⟩
            (c.acknowledgeMsg msg).setTarget msg.source
              (addToPendingFull node1 msg).1
          else
            (c.acknowledgeMsg msg).setTarget msg.source
              ⟨some ⟨sy.last_executed_message, acks'⟩, node.pending⟩
        else
          c.setTarget msg.source
            ⟨some ⟨sy.last_executed_message, acks'⟩, node.pending⟩
    | .unreliable_broadcast =>
      match node.sync with
      | none => c
      | some _ =>
        c.deliver msg.source msg.type msg.sequence_number msg.payload
    | .syn =>
      let c1 := c.acknowledgeMsg msg
      match node.sync with
      | some _ => c1
      | none =>
        c1.setTarget msg.source
          ⟨some ⟨sub1 msg.sequence_number,
                 AckSet.new .broadcast (sub1 msg.sequence_number)⟩,
           node.pending⟩

/-- `Core::on_receive_part` (lines 428-453). -/
def Core.on_receive_part (c : Core) (msg : InMessagePart) : Core :=
  if msg.is_full then c.on_receive_full msg.toFull
  else if msg.type ≠ .reliable_broadcast ∧ msg.type ≠ .unreliable_broadcast
  then c
  else
    match lookupA c.targets msg.source with
    | none => c
    | some node =>
      match node.sync with
      | none => c
      | some sy =>
        if sy.acks.can_add msg.sequence_number = false then c
        else
          let ap := addToPendingPart node msg
          let c1 := c.setTarget msg.source ap.1
          match ap.2.get_full_message with
          | some full => c1.on_receive_full full
          | none => c1

/-- `Core::broadcast_reliable` (lines 261-285). -/
def Core.broadcast_reliable (c : Core) (data : Payload) : Core :=
  let sn := c.next_reliable_broadcast_number
  let message : OutMessage :=
    ⟨c.our_id, keysOf c.targets, true, .reliable_broadcast, sn, data⟩
  let id := MessageId.reliableBroadcast sn
  { c with
    next_reliable_broadcast_number := add1 sn
    messages := emplaceA c.messages id ⟨true, message⟩
    relays := c.relays.map (fun r => r.insert_message id) }

/-- `Core::add_target_to_transport` (lines 288-326); the relay passed
by reference is identified by its index in the relay list. -/
def Core.add_target_to_transport (c : Core) (i : Nat) (new_target : Uuid) :
    Core :=
  match c.relays[i]? with
  | none => c
  | some r =>
    let at' := r.add_target new_target
    let c0 := { c with relays := c.relays.set i at'.2 }
    if at'.1 = false then c0
    else
      match lookupA c0.targets new_target with
      | some _ =>
        -- The target was already there: republish every live outbound
        -- message still targeting it on the new relay.
        let extra := (c0.messages.filter
          (fun p => p.2.live && decide (new_target ∈ p.2.msg.targets))).map
            Prod.fst
        { c0 with
          relays := c0.relays.set i
            { at'.2 with queue := at'.2.queue ++ extra } }
      | none =>
        let c1 := { c0 with targets := c0.targets ++ [(new_target, Target.new)] }
        let sn := c1.next_reliable_broadcast_number
        let message : OutMessage :=
          ⟨c1.our_id, [new_target], true, .syn, sn, []⟩
        let id := MessageId.reliableUnicast new_target sn
        { c1 with
          messages := emplaceA c1.messages id ⟨true, message⟩
          relays := c1.relays.map (fun rr => rr.insert_message id) }

/-- `Core::broadcast_unreliable` (lines 329-363). -/
def Core.broadcast_unreliable (c : Core) (id : UnreliableId) (data : Payload) :
    Core :=
  let mid := MessageId.unreliableBroadcast id
  match lookupA c.messages mid with
  | some e =>
    if e.live then
      { c with messages := setA c.messages mid ⟨e.live, e.msg.reset_payload data⟩ }
    else c
  | none =>
    let sn := c.next_message_number
    let message : OutMessage :=
      ⟨c.our_id, keysOf c.targets, false, .unreliable_broadcast, sn, data⟩
    { c with
      next_message_number := add1 sn
      messages := c.messages ++ [(mid, ⟨true, message⟩)]
      relays := c.relays.map (fun r => r.insert_message mid) }

/-- `Core::release` (lines 558-577): the relay hands back its strong
reference; `msrc` is the source field of the passed message and
`useCount` the observed `use_count()` of the shared pointer. -/
def Core.release (c : Core) (mid : MessageId) (msrc : Uuid) (useCount : Nat) :
    Core :=
  if msrc ≠ c.our_id then c
  else
    match lookupA c.messages mid with
    | none => c
    | some _ =>
      if 1 < useCount then c
      else { c with messages := eraseA c.messages mid }

/-- `Core::flush` (lines 580-583). -/
def Core.flush (c : Core) (cb : Nat) : Core := { c with on_flush := some cb }

/-- `Core::try_flush` (lines 586-604). -/
def Core.try_flush (c : Core) : Core :=
  match c.on_flush with
  | none => c
  | some cb =>
    if c.messages ≠ [] then c
    else if c.relays.any (·.sending) then c
    else { c with on_flush := none, flushed := c.flushed ++ [cb] }

/-- The `MessageId` reconstructed from one acked sequence number
(`on_receive_acks`, lines 234-237). -/
def midOfAck (t : AckType) (target : Uuid) (sn : Nat) : MessageId :=
  match t with
  | .unicast => .reliableUnicast target sn
  | .broadcast => .reliableBroadcast sn

/-- One iteration of the `on_receive_acks` loop (lines 231-253): look
up the id, lock the weak reference, remove the acking peer from the
message's targets and drop the entry once no target remains. -/
def ackStep (target : Uuid) (st : Core × Bool) (mid : MessageId) : Core × Bool :=
  match lookupA st.1.messages mid with
  | none => st
  | some e =>
    if e.live then
      let tgts' := e.msg.targets.filter (fun t => t ≠ target)
      if tgts' = [] then
        ({ st.1 with messages := eraseA st.1.messages mid }, true)
      else
        ({ st.1 with
            messages := setA st.1.messages mid ⟨e.live, { e.msg with targets := tgts' }⟩ },
          true)
    else st

/-- `Core::on_receive_acks` (lines 227-258). -/
def Core.on_receive_acks (c : Core) (target : Uuid) (acks : AckSet) : Core :=
  let r := (acks.toList.map (midOfAck acks.type target)).foldl (ackStep target)
             (c, false)
  if r.2 then r.1.try_flush else r.1

/-! Helper lemmas about `try_flush`. -/

theorem try_flush_of_none {c : Core} (h : c.on_flush = none) : c.try_flush = c := by
  simp [Core.try_flush, h]

theorem try_flush_eq {c : Core} {cb : Nat} (h : c.on_flush = some cb) :
    c.try_flush =
      if c.messages.isEmpty && !(c.relays.any (·.sending))
      then { c with on_flush := none, flushed := c.flushed ++ [cb] }
      else c := by
  simp only [Core.try_flush, h]
  by_cases hm : c.messages = []
  · rw [if_neg (fun hne => hne hm)]
    by_cases hr : c.relays.any (·.sending) = true
    · rw [if_pos hr, if_neg (by simp [hr])]
    · rw [if_neg hr, if_pos (by simp [List.isEmpty_iff, hm, hr])]
  · rw [if_pos hm, if_neg (by simp [List.isEmpty_iff, hm])]

theorem try_flush_messages (c : Core) : c.try_flush.messages = c.messages := by
  cases h : c.on_flush with
  | none => rw [try_flush_of_none h]
  | some cb =>
    rw [try_flush_eq h]
    by_cases hc : (c.messages.isEmpty && !(c.relays.any (·.sending))) = true
    · rw [if_pos hc]
    · rw [if_neg hc]

/-! Claim theorems. -/

/-- One registered relay used by concrete witness states. -/
def relay0 : RelayC := ⟨2, [], [], false⟩

/-- A concrete core with one relay and one known target, used by the
witness theorems. -/
def cW : Core := ⟨1, 0, 0, [relay0], [], none, [(3, Target.new)], [], [], []⟩

/-- C3: `broadcast_reliable(data)` allocates `sn` by post-incrementing
`_next_reliable_broadcast_number`, builds an `OutMessage` with
source = self, targets = the keys of `_targets` at call time,
reliable = true, type `reliable_broadcast` and the given payload,
registers it (as a weak reference) under `ReliableBroadcastId{sn}`, and
calls `insert_message` on every registered relay. -/
theorem C3_broadcast_reliable_effect (c : Core) (data : Payload)
    (hfresh : lookupA c.messages
      (.reliableBroadcast c.next_reliable_broadcast_number) = none) :
    c.broadcast_reliable data =
      { c with
        next_reliable_broadcast_number := add1 c.next_reliable_broadcast_number
        messages := c.messages ++
          [(MessageId.reliableBroadcast c.next_reliable_broadcast_number,
            ⟨true, ⟨c.our_id, keysOf c.targets, true, .reliable_broadcast,
                    c.next_reliable_broadcast_number, data⟩⟩)]
        relays := c.relays.map (fun r =>
          r.insert_message (.reliableBroadcast c.next_reliable_broadcast_number)) } := by
  simp only [Core.broadcast_reliable, emplaceA, hfresh]

theorem C3_broadcast_reliable_effect_witness :
    lookupA cW.messages (.reliableBroadcast cW.next_reliable_broadcast_number)
        = none ∧
    cW.broadcast_reliable [9] =
      { cW with
        next_reliable_broadcast_number := add1 cW.next_reliable_broadcast_number
        messages := cW.messages ++
          [(MessageId.reliableBroadcast cW.next_reliable_broadcast_number,
            ⟨true, ⟨cW.our_id, keysOf cW.targets, true, .reliable_broadcast,
                    cW.next_reliable_broadcast_number, [9]⟩⟩)]
        relays := cW.relays.map (fun r =>
          r.insert_message (.reliableBroadcast cW.next_reliable_broadcast_number)) } :=
  ⟨by decide, C3_broadcast_reliable_effect cW [9] (by decide)⟩

/-- C9: `flush(callback)` only stores the callback — overwriting any
previously stored, not-yet-fired flush callback — and never fires it
synchronously: the fired-callback log and the rest of the state are
untouched. -/
theorem C9_flush_only_stores (c : Core) (cb : Nat) :
    (c.flush cb).on_flush = some cb ∧
    (c.flush cb).flushed = c.flushed ∧
    (c.flush cb).messages = c.messages ∧
    (c.flush cb).relays = c.relays ∧
    (c.flush cb).delivered = c.delivered ∧
    ∀ cb', (c.flush cb').flush cb = c.flush cb :=
  ⟨rfl, rfl, rfl, rfl, rfl, fun _ => rfl⟩

/-- C4: the callback recorded by `flush` fires at the next `try_flush`
iff `_messages` is empty and no registered relay reports `is_sending`;
when it fires it is consumed, so it fires at most once. -/
theorem C4_flush_fires_iff (c : Core) (cb : Nat) :
    ((c.flush cb).try_flush =
      if (c.flush cb).messages.isEmpty && !((c.flush cb).relays.any (·.sending))
      then { (c.flush cb) with
             on_flush := none
             flushed := (c.flush cb).flushed ++ [cb] }
      else c.flush cb) ∧
    (c.flush cb).try_flush.try_flush = (c.flush cb).try_flush := by
  have hof : (c.flush cb).on_flush = some cb := rfl
  have h1 := try_flush_eq hof
  refine ⟨h1, ?_⟩
  by_cases hc : ((c.flush cb).messages.isEmpty
                  && !((c.flush cb).relays.any (·.sending))) = true
  · rw [h1, if_pos hc]
    exact try_flush_of_none rfl
  · rw [h1, if_neg hc, h1, if_neg hc]

/-- C5: when `add_target_to_transport` accepts a target that is new to
`_targets`, the syn it registers under
`ReliableUnicastId{new_target, sn}` carries the current value of
`_next_reliable_broadcast_number`, and that counter is left unchanged
by the call. -/
theorem C5_syn_sequence_number (c : Core) (i : Nat) (r : RelayC) (tgt : Uuid)
    (hr : c.relays[i]? = some r)
    (hrt : tgt ∉ r.rtargets)
    (hnew : lookupA c.targets tgt = none)
    (hfresh : lookupA c.messages
      (.reliableUnicast tgt c.next_reliable_broadcast_number) = none) :
    (c.add_target_to_transport i tgt).next_reliable_broadcast_number
        = c.next_reliable_broadcast_number ∧
    lookupA (c.add_target_to_transport i tgt).messages
        (.reliableUnicast tgt c.next_reliable_broadcast_number)
      = some ⟨true, ⟨c.our_id, [tgt], true, .syn,
                     c.next_reliable_broadcast_number, []⟩⟩ := by
  unfold Core.add_target_to_transport
  rw [hr]
  simp only [RelayC.add_target, if_neg hrt]
  simp only [hnew, emplaceA, hfresh]
  exact ⟨rfl, lookupA_append_right _ _ _ hfresh⟩

theorem C5_syn_sequence_number_witness :
    cW.relays[0]? = some relay0 ∧ (7 : Uuid) ∉ relay0.rtargets ∧
    lookupA cW.targets 7 = none ∧
    lookupA cW.messages (.reliableUnicast 7 cW.next_reliable_broadcast_number)
        = none ∧
    ((cW.add_target_to_transport 0 7).next_reliable_broadcast_number
        = cW.next_reliable_broadcast_number ∧
     lookupA (cW.add_target_to_transport 0 7).messages
         (.reliableUnicast 7 cW.next_reliable_broadcast_number)
       = some ⟨true, ⟨cW.our_id, [7], true, .syn,
                      cW.next_reliable_broadcast_number, []⟩⟩) :=
  ⟨by decide, by decide, by decide, by decide,
    C5_syn_sequence_number cW 0 relay0 7 (by decide) (by decide) (by decide)
      (by decide)⟩

/-- C6: two successive `broadcast_unreliable` calls with the same key,
the second while the registered message is still live, leave a single
registered message whose payload is the second one; the second call
replaces the payload in place, allocates no sequence number and
publishes nothing further to the relays. -/
theorem C6_unreliable_coalescing (c : Core) (k : UnreliableId) (d1 d2 : Payload)
    (hfresh : lookupA c.messages (.unreliableBroadcast k) = none) :
    lookupA ((c.broadcast_unreliable k d1).broadcast_unreliable k d2).messages
        (.unreliableBroadcast k)
      = some ⟨true, ⟨c.our_id, keysOf c.targets, false, .unreliable_broadcast,
                     c.next_message_number, d2⟩⟩ ∧
    ((c.broadcast_unreliable k d1).broadcast_unreliable k d2).next_message_number
      = add1 c.next_message_number ∧
    ((c.broadcast_unreliable k d1).broadcast_unreliable k d2).relays
      = (c.broadcast_unreliable k d1).relays ∧
    ((c.broadcast_unreliable k d1).broadcast_unreliable k d2).messages
      = setA (c.broadcast_unreliable k d1).messages (.unreliableBroadcast k)
          ⟨true, ⟨c.our_id, keysOf c.targets, false, .unreliable_broadcast,
                  c.next_message_number, d2⟩⟩ := by
  have h1 : c.broadcast_unreliable k d1 =
      { c with
        next_message_number := add1 c.next_message_number
        messages := c.messages ++
          [(MessageId.unreliableBroadcast k,
            ⟨true, ⟨c.our_id, keysOf c.targets, false, .unreliable_broadcast,
                    c.next_message_number, d1⟩⟩)]
        relays := c.relays.map (fun r =>
          r.insert_message (.unreliableBroadcast k)) } := by
    simp only [Core.broadcast_unreliable, hfresh]
  have h2 : lookupA (c.broadcast_unreliable k d1).messages
      (.unreliableBroadcast k)
      = some ⟨true, ⟨c.our_id, keysOf c.targets, false, .unreliable_broadcast,
                     c.next_message_number, d1⟩⟩ := by
    rw [h1]
    exact lookupA_append_right _ _ _ hfresh
  have hgen : ∀ (d : Core),
      lookupA d.messages (.unreliableBroadcast k)
        = some ⟨true, ⟨c.our_id, keysOf c.targets, false, .unreliable_broadcast,
                       c.next_message_number, d1⟩⟩ →
      d.broadcast_unreliable k d2 =
        { d with
          messages := setA d.messages (.unreliableBroadcast k)
            ⟨true, ⟨c.our_id, keysOf c.targets, false, .unreliable_broadcast,
                    c.next_message_number, d2⟩⟩ } := by
    intro d hd
    simp only [Core.broadcast_unreliable, hd]
    rfl
  have h3 := hgen _ h2
  refine ⟨?_, ?_, ?_, ?_⟩
  · rw [h3]
    exact lookupA_setA_self _ _ _ _ h2
  · rw [h3, h1]
  · rw [h3]
  · rw [h3]

theorem C6_unreliable_coalescing_witness :
    lookupA cW.messages (.unreliableBroadcast 4) = none ∧
    lookupA ((cW.broadcast_unreliable 4 [1]).broadcast_unreliable 4 [2]).messages
        (.unreliableBroadcast 4)
      = some ⟨true, ⟨cW.our_id, keysOf cW.targets, false, .unreliable_broadcast,
                     cW.next_message_number, [2]⟩⟩ :=
  ⟨by decide,
    (C6_unreliable_coalescing cW 4 [1] [2] (by decide)).1⟩

/-- A core holding one registered reliable message whose target `42`
has not acked. -/
def cC2 : Core :=
  ⟨1, 0, 0, [],
    [(.reliableBroadcast 0, ⟨true, ⟨1, [42], true, .reliable_broadcast, 0, []⟩⟩)],
    none, [], [], [], []⟩

/-- C2 counterexample: `release` erases the registry entry of a message
whose remaining-target set is non-empty (no ack from target `42` was
ever processed — the ack log is empty), as soon as the registry is the
sole owner.  This contradicts the claim that no operation removes the
entry while the targets set is non-empty. -/
theorem C2_release_drops_unacked :
    lookupA cC2.messages (.reliableBroadcast 0)
        = some ⟨true, ⟨1, [42], true, .reliable_broadcast, 0, []⟩⟩ ∧
    cC2.ackLog = [] ∧
    lookupA ((cC2.release (.reliableBroadcast 0) 1 1).messages)
        (.reliableBroadcast 0) = none := by
  decide

theorem filter_ne_idem (target : Uuid) (l : List Uuid) :
    (l.filter (fun t => t ≠ target)).filter (fun t => t ≠ target)
      = l.filter (fun t => t ≠ target) := by
  induction l with
  | nil => rfl
  | cons x xs ih =>
    by_cases hx : x = target
    · simp [hx, ih]
    · simp [List.filter_cons, hx, ih]

theorem ackFold_lookup_none (target : Uuid) :
    ∀ (mids : List MessageId) (c : Core) (b : Bool) (mid : MessageId) (e : MEntry),
      lookupA c.messages mid = some e →
      lookupA ((mids.foldl (ackStep target) (c, b)).1.messages) mid = none →
      e.live = true ∧ e.msg.targets.filter (fun t => t ≠ target) = [] := by
  intro mids
  induction mids with
  | nil =>
    intro c b mid e hpre hpost
    simp only [List.foldl_nil] at hpost
    rw [hpre] at hpost
    cases hpost
  | cons m0 rest ih =>
    intro c b mid e hpre hpost
    simp only [List.foldl_cons] at hpost
    cases h0 : lookupA c.messages m0 with
    | none =>
      simp only [ackStep, h0] at hpost
      exact ih c b mid e hpre hpost
    | some e0 =>
      by_cases hlive : e0.live = true
      · by_cases hfilt : e0.msg.targets.filter (fun t => t ≠ target) = []
        · simp only [ackStep, h0, hlive, if_true, hfilt, if_pos rfl] at hpost
          by_cases hmid : mid = m0
          · subst hmid
            rw [hpre] at h0
            cases h0
            exact ⟨hlive, hfilt⟩
          · have hpre' : lookupA (eraseA c.messages m0) mid = some e := by
              rw [lookupA_eraseA_ne _ _ _ hmid]
              exact hpre
            exact ih _ true mid e hpre' hpost
        · simp only [ackStep, h0, hlive, if_true, if_neg hfilt] at hpost
          by_cases hmid : mid = m0
          · subst hmid
            rw [hpre] at h0
            cases h0
            have hpre' : lookupA
                (setA c.messages mid
                  ⟨true, { e.msg with
                           targets := e.msg.targets.filter (fun t => t ≠ target) }⟩)
                mid
                = some ⟨true, { e.msg with
                                targets := e.msg.targets.filter (fun t => t ≠ target) }⟩ :=
              lookupA_setA_self _ _ _ _ hpre
            have hres := ih _ true mid _ hpre' hpost
            refine ⟨hlive, ?_⟩
            have h2 := hres.2
            simp only at h2
            rw [filter_ne_idem] at h2
            exact h2
          · have hpre' : lookupA
                (setA c.messages m0
                  ⟨true, { e0.msg with
                           targets := e0.msg.targets.filter (fun t => t ≠ target) }⟩)
                mid = some e := by
              rw [lookupA_ne _ _ _ _ hmid]
              exact hpre
            exact ih _ true mid e hpre' hpost
      · simp only [ackStep, h0, hlive, if_false] at hpost
        have hlive' : e0.live = false := by
          cases hb : e0.live
          · rfl
          · exact absurd hb hlive
        simp only [Bool.false_eq_true] at hpost
        exact ih c b mid e hpre hpost

/-- C2, amended: ack processing (`on_receive_acks`) removes a registry
entry only when the entry was live and no target other than the acking
peer remained; `release`, by contrast, may erase a sole-owned entry
even while its targets set is non-empty (see the counterexample and
the TODO at lines 571-575 of `core.h`). -/
theorem C2_acks_respect_targets (c : Core) (target : Uuid) (acks : AckSet)
    (mid : MessageId) (e : MEntry)
    (hpre : lookupA c.messages mid = some e)
    (hpost : lookupA ((c.on_receive_acks target acks).messages) mid = none) :
    e.live = true ∧ e.msg.targets.filter (fun t => t ≠ target) = [] := by
  unfold Core.on_receive_acks at hpost
  by_cases hb : ((acks.toList.map (midOfAck acks.type target)).foldl
      (ackStep target) (c, false)).2 = true
  · rw [if_pos hb, try_flush_messages] at hpost
    exact ackFold_lookup_none target _ c false mid e hpre hpost
  · rw [if_neg hb] at hpost
    exact ackFold_lookup_none target _ c false mid e hpre hpost

/-- A core holding one live registered message targeted only at `7`. -/
def cC2b : Core :=
  ⟨1, 0, 0, [],
    [(.reliableBroadcast 5, ⟨true, ⟨1, [7], true, .reliable_broadcast, 5, []⟩⟩)],
    none, [], [], [], []⟩

theorem C2_acks_respect_targets_witness :
    lookupA cC2b.messages (.reliableBroadcast 5)
        = some ⟨true, ⟨1, [7], true, .reliable_broadcast, 5, []⟩⟩ ∧
    lookupA ((cC2b.on_receive_acks 7 (AckSet.new .broadcast 5)).messages)
        (.reliableBroadcast 5) = none ∧
    ((⟨true, ⟨1, [7], true, .reliable_broadcast, 5, []⟩⟩ : MEntry).live = true ∧
      (⟨true, ⟨1, [7], true, .reliable_broadcast, 5, []⟩⟩ : MEntry).msg.targets.filter
        (fun t => t ≠ 7) = []) :=
  ⟨by decide, by decide,
    C2_acks_respect_targets cC2b 7 (AckSet.new .broadcast 5)
      (.reliableBroadcast 5) _ (by decide) (by decide)⟩

theorem ackFold_skip (target : Uuid) :
    ∀ (mids : List MessageId) (c : Core),
      (∀ mid ∈ mids, ∀ e, lookupA c.messages mid = some e → e.live = false) →
      mids.foldl (ackStep target) (c, false) = (c, false) := by
  intro mids
  induction mids with
  | nil => intro c _; rfl
  | cons m0 rest ih =>
    intro c h
    simp only [List.foldl_cons]
    have hstep : ackStep target (c, false) m0 = (c, false) := by
      unfold ackStep
      cases h0 : lookupA c.messages m0 with
      | none => rfl
      | some e0 =>
        have := h m0 (List.mem_cons_self _ _) e0 h0
        simp [this]
    rw [hstep]
    exact ih c (fun mid hm => h mid (List.mem_cons_of_mem _ hm))

/-- C10: acked sequence numbers whose registry entry is missing or
expired neither erase the entry nor count as a landed ack; when every
acked sn is of that kind, `on_receive_acks` leaves the core unchanged
and does not call `try_flush`. -/
theorem C10_expired_acks_noop (c : Core) (target : Uuid) (acks : AckSet)
    (h : ∀ sn ∈ acks.toList, ∀ e,
      lookupA c.messages (midOfAck acks.type target sn) = some e →
      e.live = false) :
    c.on_receive_acks target acks = c := by
  unfold Core.on_receive_acks
  have hf := ackFold_skip target (acks.toList.map (midOfAck acks.type target)) c
    (by
      intro mid hm e hl
      rcases List.mem_map.mp hm with ⟨sn, hsn, rfl⟩
      exact h sn hsn e hl)
  rw [hf]
  rfl

/-- A core holding one expired registered message (the weak reference
no longer locks). -/
def cC10 : Core :=
  ⟨1, 0, 0, [],
    [(.reliableBroadcast 5, ⟨false, ⟨1, [7], true, .reliable_broadcast, 5, []⟩⟩)],
    some 11, [], [], [], []⟩

theorem C10_expired_acks_noop_witness :
    (∀ sn ∈ (AckSet.new .broadcast 5).toList, ∀ e,
      lookupA cC10.messages (midOfAck (AckSet.new .broadcast 5).type 7 sn)
          = some e → e.live = false) ∧
    cC10.on_receive_acks 7 (AckSet.new .broadcast 5) = cC10 :=
  ⟨by decide, C10_expired_acks_noop cC10 7 (AckSet.new .broadcast 5) (by decide)⟩

/-- C7: when `on_receive_full` processes a syn from a source that has a
Target, it enqueues a (unicast) ack; if the Target's sync is absent it
initializes it with `last_executed = sn - 1` and
`acks = AckSet(broadcast, sn - 1)` (32-bit wrap-around arithmetic); if
sync already exists the Target state is left unchanged, so syn
retransmissions are idempotent.  Nothing is delivered. -/
theorem C7_syn_handling (c : Core) (msg : InMessageFull) (node : Target)
    (htype : msg.type = .syn)
    (hnode : lookupA c.targets msg.source = some node) :
    (c.on_receive_full msg).ackLog
        = c.ackLog ++ [(msg.source, .unicast, msg.sequence_number)] ∧
    (c.on_receive_full msg).delivered = c.delivered ∧
    (node.sync = none →
      (c.on_receive_full msg).targets = setA c.targets msg.source
        ⟨some ⟨sub1 msg.sequence_number,
               AckSet.new .broadcast (sub1 msg.sequence_number)⟩,
         node.pending⟩) ∧
    (∀ sy, node.sync = some sy → (c.on_receive_full msg).targets = c.targets) := by
  have hack : c.acknowledgeMsg msg
      = c.acknowledgeSn msg.source .unicast msg.sequence_number := by
    simp only [Core.acknowledgeMsg, htype]
  cases hs : node.sync with
  | none =>
    have hred : c.on_receive_full msg =
        (c.acknowledgeMsg msg).setTarget msg.source
          ⟨some ⟨sub1 msg.sequence_number,
                 AckSet.new .broadcast (sub1 msg.sequence_number)⟩,
           node.pending⟩ := by
      simp only [Core.on_receive_full, hnode, htype, hs]
    rw [hred, hack]
    refine ⟨rfl, rfl, fun _ => rfl, fun sy hsy => ?_⟩
    cases hsy
  | some sy0 =>
    have hred : c.on_receive_full msg = c.acknowledgeMsg msg := by
      simp only [Core.on_receive_full, hnode, htype, hs]
    rw [hred, hack]
    refine ⟨rfl, rfl, fun hn => ?_, fun sy hsy => rfl⟩
    cases hn

theorem C7_syn_handling_witness :
    ((⟨3, .syn, 0, 0, []⟩ : InMessageFull).type = .syn ∧
      lookupA cW.targets 3 = some Target.new) ∧
    ((cW.on_receive_full ⟨3, .syn, 0, 0, []⟩).ackLog
        = cW.ackLog ++ [(3, .unicast, 0)] ∧
     (cW.on_receive_full ⟨3, .syn, 0, 0, []⟩).delivered = cW.delivered ∧
     (Target.new.sync = none →
       (cW.on_receive_full ⟨3, .syn, 0, 0, []⟩).targets = setA cW.targets 3
         ⟨some ⟨sub1 0, AckSet.new .broadcast (sub1 0)⟩, Target.new.pending⟩) ∧
     (∀ sy, Target.new.sync = some sy →
       (cW.on_receive_full ⟨3, .syn, 0, 0, []⟩).targets = cW.targets)) :=
  ⟨⟨rfl, by decide⟩,
    C7_syn_handling cW ⟨3, .syn, 0, 0, []⟩ Target.new rfl (by decide)⟩

/-- C8: `on_receive_part` lifts a part covering the entire original
message to a full message and delegates to `on_receive_full`; a
non-covering part leaves the core unchanged whenever its type is
neither `reliable_broadcast` nor `unreliable_broadcast`, or no Target
exists for the source, or the Target is not yet synced, or the
sequence number fails `can_add` on the Target's ack window. -/
theorem C8_part_gating (c : Core) (msg : InMessagePart) :
    (msg.is_full = true → c.on_receive_part msg = c.on_receive_full msg.toFull) ∧
    (msg.is_full = false →
      ((msg.type ≠ .reliable_broadcast ∧ msg.type ≠ .unreliable_broadcast) ∨
        lookupA c.targets msg.source = none ∨
        (∃ node, lookupA c.targets msg.source = some node ∧ node.sync = none) ∨
        (∃ node sy, lookupA c.targets msg.source = some node ∧
          node.sync = some sy ∧
          sy.acks.can_add msg.sequence_number = false)) →
      c.on_receive_part msg = c) := by
  constructor
  · intro hf
    simp only [Core.on_receive_part, hf, if_true]
  · intro hf hdrop
    simp only [Core.on_receive_part, hf, Bool.false_eq_true, if_false]
    rcases hdrop with ht | hn | ⟨node, hn, hs⟩ | ⟨node, sy, hn, hs, hca⟩
    · rw [if_pos ht]
    · by_cases ht : (msg.type ≠ .reliable_broadcast ∧
          msg.type ≠ .unreliable_broadcast)
      · rw [if_pos ht]
      · rw [if_neg ht]
        simp only [hn]
    · by_cases ht : (msg.type ≠ .reliable_broadcast ∧
          msg.type ≠ .unreliable_broadcast)
      · rw [if_pos ht]
      · rw [if_neg ht]
        simp only [hn, hs]
    · by_cases ht : (msg.type ≠ .reliable_broadcast ∧
          msg.type ≠ .unreliable_broadcast)
      · rw [if_pos ht]
      · rw [if_neg ht]
        simp [hn, hs, hca]

theorem C8_part_gating_witness :
    ((⟨3, .reliable_broadcast, 1, 1, 0, [5]⟩ : InMessagePart).is_full = true ∧
      cW.on_receive_part ⟨3, .reliable_broadcast, 1, 1, 0, [5]⟩
        = cW.on_receive_full
            (InMessagePart.toFull ⟨3, .reliable_broadcast, 1, 1, 0, [5]⟩)) ∧
    ((⟨3, .reliable_broadcast, 1, 2, 0, [5]⟩ : InMessagePart).is_full = false ∧
      cW.on_receive_part ⟨3, .reliable_broadcast, 1, 2, 0, [5]⟩ = cW) :=
  ⟨⟨by decide,
      (C8_part_gating cW ⟨3, .reliable_broadcast, 1, 1, 0, [5]⟩).1 (by decide)⟩,
    ⟨by decide,
      (C8_part_gating cW ⟨3, .reliable_broadcast, 1, 2, 0, [5]⟩).2 (by decide)
        (Or.inr (Or.inr (Or.inl ⟨Target.new, by decide, rfl⟩)))⟩⟩

/-! Infrastructure for the per-sender delivery invariant (claim C1):
contiguous ranges of sequence numbers, the reliable deliveries with a
given source extracted from the delivery log, and the receive-side
invariant preserved by `on_receive_full`. -/

/-- The contiguous range `[a, a + n)`. -/
def seqR : Nat → Nat → List Nat
  | _, 0 => []
  | a, n + 1 => a :: seqR (a + 1) n

theorem seqR_append (m : Nat) : ∀ (a k : Nat),
    seqR a (m + k) = seqR a m ++ seqR (a + m) k := by
  induction m with
  | zero => intro a k; simp [seqR]
  | succ m ih =>
    intro a k
    have h1 : m + 1 + k = (m + k) + 1 := by omega
    rw [h1]
    show a :: seqR (a + 1) (m + k) = a :: seqR (a + 1) m ++ seqR (a + (m + 1)) k
    rw [ih (a + 1) k]
    have h2 : a + 1 + m = a + (m + 1) := by omega
    rw [h2]
    rfl

theorem mem_seqR : ∀ (n a x : Nat), x ∈ seqR a n ↔ a ≤ x ∧ x < a + n := by
  intro n
  induction n with
  | zero =>
    intro a x
    simp only [seqR, List.not_mem_nil, false_iff]
    omega
  | succ n ih =>
    intro a x
    simp only [seqR, List.mem_cons, ih (a + 1) x]
    omega

theorem seqR_nodup : ∀ (n a : Nat), (seqR a n).Nodup := by
  intro n
  induction n with
  | zero => intro a; simp [seqR]
  | succ n ih =>
    intro a
    simp only [seqR, List.nodup_cons]
    refine ⟨fun hmem => ?_, ih (a + 1)⟩
    rw [mem_seqR] at hmem
    omega

/-- The reliable-broadcast deliveries with the given source, as
(sequence number, payload) pairs in delivery order. -/
def reliableFrom (log : List DeliverEv) (S : Uuid) : List (Nat × Payload) :=
  log.filterMap (fun ev =>
    if ev.source = S ∧ ev.type = .reliable_broadcast
    then some (ev.sequence_number, ev.payload) else none)

theorem reliableFrom_append (l1 l2 : List DeliverEv) (S : Uuid) :
    reliableFrom (l1 ++ l2) S = reliableFrom l1 S ++ reliableFrom l2 S :=
  List.filterMap_append _ _ _

theorem reliableFrom_nil (S : Uuid) : reliableFrom [] S = [] := rfl

theorem reliableFrom_single_rb (S : Uuid) (n : Nat) (p : Payload) :
    reliableFrom [⟨S, .reliable_broadcast, n, p⟩] S = [(n, p)] := by
  simp [reliableFrom]

theorem reliableFrom_single_src_ne (S S' : Uuid) (ty : MessageType) (n : Nat)
    (p : Payload) (h : S ≠ S') : reliableFrom [⟨S, ty, n, p⟩] S' = [] := by
  simp [reliableFrom, h]

theorem reliableFrom_single_ub (S S' : Uuid) (n : Nat) (p : Payload) :
    reliableFrom [⟨S, .unreliable_broadcast, n, p⟩] S' = [] := by
  simp [reliableFrom]

/-- The authentic reliable-broadcast message of sender `S` at sequence
number `k`: payload taken from the sender's stream. -/
def rbMsg (stream : Uuid → Nat → Payload) (S : Uuid) (k : Nat) : InMessageFull :=
  ⟨S, .reliable_broadcast, k, (stream S k).length, stream S k⟩

/-- The delivery event of `rbMsg`. -/
def rbEv (stream : Uuid → Nat → Payload) (S : Uuid) (k : Nat) : DeliverEv :=
  ⟨S, .reliable_broadcast, k, stream S k⟩

theorem reliableFrom_events_self (stream : Uuid → Nat → Payload) (S : Uuid) :
    ∀ js : List Nat,
      reliableFrom (js.map (rbEv stream S)) S
        = js.map (fun j => (j, stream S j)) := by
  intro js
  induction js with
  | nil => rfl
  | cons j rest ih =>
    simp only [List.map_cons]
    have : (rbEv stream S j) :: List.map (rbEv stream S) rest
        = [rbEv stream S j] ++ List.map (rbEv stream S) rest := rfl
    rw [this, reliableFrom_append, ih]
    simp only [rbEv]
    rw [reliableFrom_single_rb]
    rfl

theorem reliableFrom_events_ne (stream : Uuid → Nat → Payload) (S S' : Uuid)
    (h : S ≠ S') : ∀ js : List Nat,
      reliableFrom (js.map (rbEv stream S)) S' = [] := by
  intro js
  induction js with
  | nil => rfl
  | cons j rest ih =>
    simp only [List.map_cons]
    have : (rbEv stream S j) :: List.map (rbEv stream S) rest
        = [rbEv stream S j] ++ List.map (rbEv stream S) rest := rfl
    rw [this, reliableFrom_append, ih]
    simp only [rbEv]
    rw [reliableFrom_single_src_ne _ _ _ _ _ h]
    rfl

/-- A message of the trace is well formed and authentic: its sequence
number is a 32-bit value, its `original_size` is consistent, and a
reliable broadcast carries the sender's stream payload at its sequence
number. -/
def authenticMsg (stream : Uuid → Nat → Payload) (m : InMessageFull) : Prop :=
  m.sequence_number < W32 ∧
  m.original_size = m.payload.length ∧
  (m.type = .reliable_broadcast → m.payload = stream m.source m.sequence_number)

instance authenticMsgDec (stream : Uuid → Nat → Payload) (m : InMessageFull) :
    Decidable (authenticMsg stream m) := by
  unfold authenticMsg
  infer_instance

theorem authentic_rb_eq (stream : Uuid → Nat → Payload) (m : InMessageFull)
    (h : authenticMsg stream m) (ht : m.type = .reliable_broadcast) :
    m = rbMsg stream m.source m.sequence_number := by
  obtain ⟨s, ty, sn, os, p⟩ := m
  obtain ⟨h1, h2, h3⟩ := h
  simp only at ht h2 h3
  subst ht
  have hp := h3 rfl
  simp only at hp
  subst hp
  simp [rbMsg, h2]

/-- Invariant of one `pending` entry of the Target for sender `S`:
a key in `[1, 2^32)` holding the fully assembled authentic message. -/
def entryInv (stream : Uuid → Nat → Payload) (S : Uuid)
    (p : Nat × PendingMessage) : Prop :=
  1 ≤ p.1 ∧ p.1 < W32 ∧ p.2 = PendingMessage.ofFull (rbMsg stream S p.1)

/-- Receive invariant of the Target for sender `S` relative to the
delivery log: before the syn nothing was delivered and nothing is
pending; after it, the reliable deliveries from `S` are exactly the
contiguous run of stream entries ending at `last_executed_message`,
the ack-window top bounds `last_executed_message` and every pending
key, and every pending entry is authentic. -/
def targetInv (stream : Uuid → Nat → Payload) (S : Uuid)
    (dlog : List DeliverEv) (t : Target) : Prop :=
  match t.sync with
  | none => t.pending = [] ∧ reliableFrom dlog S = []
  | some sy =>
    sy.last_executed_message < W32 ∧
    sy.last_executed_message ≤ sy.acks.hi ∧
    (∀ p ∈ t.pending, entryInv stream S p ∧ p.1 ≤ sy.acks.hi) ∧
    ∃ s0, s0 ≤ sy.last_executed_message ∧
      reliableFrom dlog S
        = (seqR (s0 + 1) (sy.last_executed_message - s0)).map
            (fun n => (n, stream S n))

/-- Receive invariant of the whole core. -/
def coreInv (stream : Uuid → Nat → Payload) (c : Core) : Prop :=
  ∀ S : Uuid,
    (∀ node, lookupA c.targets S = some node →
      targetInv stream S c.delivered node) ∧
    (lookupA c.targets S = none → reliableFrom c.delivered S = [])

theorem targetInv_congr (stream : Uuid → Nat → Payload) (S : Uuid)
    (d1 d2 : List DeliverEv) (t : Target)
    (h : reliableFrom d2 S = reliableFrom d1 S)
    (hi : targetInv stream S d1 t) : targetInv stream S d2 t := by
  unfold targetInv at *
  cases hs : t.sync with
  | none =>
    rw [hs] at hi
    exact ⟨hi.1, h ▸ hi.2⟩
  | some sy =>
    rw [hs] at hi
    obtain ⟨h1, h2, h3, s0, hs0, hr⟩ := hi
    exact ⟨h1, h2, h3, s0, hs0, h ▸ hr⟩

theorem add1_lt {le : Nat} (h : le + 1 < W32) : add1 le = le + 1 :=
  Nat.mod_eq_of_lt h

theorem replayLoop_spec (stream : Uuid → Nat → Payload) (S : Uuid) (H : Nat) :
    ∀ (pending : List (Nat × PendingMessage)) (c : Core) (le : Nat),
      (∀ p ∈ pending, entryInv stream S p ∧ p.1 ≤ H) →
      le < W32 → le ≤ H →
      ∃ n,
        (replayLoop c le pending).2.1 = le + n ∧
        le + n < W32 ∧ le + n ≤ H ∧
        (replayLoop c le pending).1.delivered
          = c.delivered ++ (seqR (le + 1) n).map (rbEv stream S) ∧
        (∀ p ∈ (replayLoop c le pending).2.2,
          entryInv stream S p ∧ p.1 ≤ H) ∧
        (replayLoop c le pending).1.targets = c.targets := by
  intro pending
  induction pending with
  | nil =>
    intro c le hent hle hleH
    refine ⟨0, rfl, by omega, by omega, by simp [replayLoop, seqR], ?_, rfl⟩
    intro p hp
    simp [replayLoop] at hp
  | cons hd rest ih =>
    obtain ⟨k, pm⟩ := hd
    intro c le hent hle hleH
    by_cases hk : k ≤ le
    · have hred : replayLoop c le ((k, pm) :: rest) = replayLoop c le rest := by
        simp [replayLoop, hk]
      rw [hred]
      exact ih c le (fun p hp => hent p (List.mem_cons_of_mem _ hp)) hle hleH
    · by_cases hkeq : k = add1 le
      · obtain ⟨⟨hk1, hkW, hpm⟩, hkH⟩ := hent (k, pm) (List.mem_cons_self _ _)
        simp only at hk1 hkW hpm hkH
        have hW : le + 1 < W32 := by
          rcases Nat.lt_or_ge (le + 1) W32 with h | h
          · exact h
          · exfalso
            have hEq : le + 1 = W32 := by omega
            have h0 : add1 le = 0 := by
              unfold add1
              rw [hEq]
              exact Nat.mod_self _
            rw [hkeq, h0] at hk1
            omega
        have hkle : k = le + 1 := by rw [hkeq]; exact add1_lt hW
        have hgf : pm.get_full_message = some (rbMsg stream S k) := by
          rw [hpm]; exact get_full_ofFull _
        have hne : ¬ (k ≠ add1 le) := by
          intro hcon; exact hcon hkeq
        have hred : replayLoop c le ((k, pm) :: rest)
            = replayLoop
                ((c.acknowledgeMsg (rbMsg stream S k)).deliver S
                  .reliable_broadcast k (stream S k))
                (add1 le) rest := by
          simp only [replayLoop]
          rw [if_neg hk, if_neg hne, hgf]
          rfl
        rw [add1_lt hW] at hred
        rw [hred]
        have hc1 :
            ((c.acknowledgeMsg (rbMsg stream S k)).deliver S
              .reliable_broadcast k (stream S k)).delivered
            = c.delivered ++ [rbEv stream S k] := rfl
        obtain ⟨n, h1, h2, h3, h4, h5, h6⟩ :=
          ih ((c.acknowledgeMsg (rbMsg stream S k)).deliver S
                .reliable_broadcast k (stream S k))
            (le + 1)
            (fun p hp => hent p (List.mem_cons_of_mem _ hp))
            (by omega)
            (by omega)
        refine ⟨n + 1, ?_, by omega, by omega, ?_, h5, ?_⟩
        · rw [h1]; omega
        · rw [h4, hc1]
          rw [hkle]
          have hseq : seqR (le + 1) (n + 1)
              = (le + 1) :: seqR (le + 1 + 1) n := rfl
          rw [hseq]
          simp
        · rw [h6]
          rfl
      · have hred : replayLoop c le ((k, pm) :: rest) = (c, le, (k, pm) :: rest) := by
          simp [replayLoop, hk, hkeq]
        rw [hred]
        exact ⟨0, rfl, by omega, by omega, by simp [seqR], hent, rfl⟩

theorem ackMsg_delivered (c : Core) (m : InMessageFull) :
    (c.acknowledgeMsg m).delivered = c.delivered := by
  obtain ⟨s, ty, sn, os, p⟩ := m
  cases ty <;> rfl

theorem ackMsg_targets (c : Core) (m : InMessageFull) :
    (c.acknowledgeMsg m).targets = c.targets := by
  obtain ⟨s, ty, sn, os, p⟩ := m
  cases ty <;> rfl

theorem coreInv_keep (stream : Uuid → Nat → Payload) (c c' : Core)
    (ht : c'.targets = c.targets)
    (hrf : ∀ S, reliableFrom c'.delivered S = reliableFrom c.delivered S)
    (hc : coreInv stream c) : coreInv stream c' := by
  intro S
  constructor
  · intro nd hnd
    rw [ht] at hnd
    exact targetInv_congr _ _ _ _ _ (hrf S) ((hc S).1 nd hnd)
  · intro hnone
    rw [ht] at hnone
    rw [hrf S]
    exact (hc S).2 hnone

theorem coreInv_upd (stream : Uuid → Nat → Payload) (c : Core) (src : Uuid)
    (newNode node : Target) (js : List Nat)
    (hlk : lookupA c.targets src = some node)
    (hc : coreInv stream c) (c' : Core)
    (ht : c'.targets = setA c.targets src newNode)
    (hd : c'.delivered = c.delivered ++ js.map (rbEv stream src))
    (hnew : targetInv stream src c'.delivered newNode) :
    coreInv stream c' := by
  intro S
  constructor
  · intro nd hnd
    rw [ht] at hnd
    by_cases hS : S = src
    · subst hS
      rw [lookupA_setA_self _ _ _ _ hlk] at hnd
      cases hnd
      exact hnew
    · rw [lookupA_ne _ _ _ _ hS] at hnd
      have hold := (hc S).1 nd hnd
      refine targetInv_congr _ _ _ _ _ ?_ hold
      rw [hd, reliableFrom_append,
        reliableFrom_events_ne stream src S (fun hh => hS hh.symm) js]
      simp
  · intro hnone
    rw [ht] at hnone
    by_cases hS : S = src
    · subst hS
      rw [lookupA_setA_self _ _ _ _ hlk] at hnone
      cases hnone
    · rw [lookupA_ne _ _ _ _ hS] at hnone
      have hold := (hc S).2 hnone
      rw [hd, reliableFrom_append,
        reliableFrom_events_ne stream src S (fun hh => hS hh.symm) js, hold]
      rfl

theorem sub1_lt_W32 (sn : Nat) : sub1 sn < W32 := by
  unfold sub1
  exact Nat.mod_lt _ (by norm_num [W32])

theorem step_syn (stream : Uuid → Nat → Payload) (c : Core)
    (msg : InMessageFull) (node : Target)
    (hlk : lookupA c.targets msg.source = some node)
    (htype : msg.type = .syn)
    (hc : coreInv stream c) :
    coreInv stream (c.on_receive_full msg) := by
  cases hs : node.sync with
  | some sy =>
    have hred : c.on_receive_full msg = c.acknowledgeMsg msg := by
      simp only [Core.on_receive_full, hlk, htype, hs]
    rw [hred]
    exact coreInv_keep stream c _ (ackMsg_targets c msg)
      (fun S => by rw [ackMsg_delivered]) hc
  | none =>
    have hred : c.on_receive_full msg =
        (c.acknowledgeMsg msg).setTarget msg.source
          ⟨some ⟨sub1 msg.sequence_number,
                 AckSet.new .broadcast (sub1 msg.sequence_number)⟩,
           node.pending⟩ := by
      simp only [Core.on_receive_full, hlk, htype, hs]
    rw [hred]
    have hold := (hc msg.source).1 node hlk
    unfold targetInv at hold
    rw [hs] at hold
    obtain ⟨hpend, hrf⟩ := hold
    refine coreInv_upd stream c msg.source
      ⟨some ⟨sub1 msg.sequence_number,
             AckSet.new .broadcast (sub1 msg.sequence_number)⟩, node.pending⟩
      node [] hlk hc _ ?_ ?_ ?_
    · simp only [Core.setTarget, ackMsg_targets]
    · show (c.acknowledgeMsg msg).delivered = c.delivered ++ []
      rw [ackMsg_delivered]
      simp
    · show targetInv stream msg.source _ _
      unfold targetInv
      simp only
      refine ⟨sub1_lt_W32 _, Nat.le_refl _, ?_, ?_⟩
      · intro p hp
        rw [hpend] at hp
        cases hp
      · refine ⟨sub1 msg.sequence_number, Nat.le_refl _, ?_⟩
        have hd : (c.acknowledgeMsg msg).delivered = c.delivered :=
          ackMsg_delivered c msg
        show reliableFrom ((c.acknowledgeMsg msg).setTarget _ _).delivered _ = _
        have hd2 : ((c.acknowledgeMsg msg).setTarget msg.source
            ⟨some ⟨sub1 msg.sequence_number,
                   AckSet.new .broadcast (sub1 msg.sequence_number)⟩,
             node.pending⟩).delivered = c.delivered := hd
        rw [hd2, hrf, Nat.sub_self]
        rfl

theorem step_ub (stream : Uuid → Nat → Payload) (c : Core)
    (msg : InMessageFull) (node : Target)
    (hlk : lookupA c.targets msg.source = some node)
    (htype : msg.type = .unreliable_broadcast)
    (hc : coreInv stream c) :
    coreInv stream (c.on_receive_full msg) := by
  cases hs : node.sync with
  | none =>
    have hred : c.on_receive_full msg = c := by
      simp only [Core.on_receive_full, hlk, htype, hs]
    rw [hred]
    exact hc
  | some sy =>
    have hred : c.on_receive_full msg =
        c.deliver msg.source msg.type msg.sequence_number msg.payload := by
      simp only [Core.on_receive_full, hlk, htype, hs]
    rw [hred]
    refine coreInv_keep stream c _ rfl (fun S => ?_) hc
    show reliableFrom (c.delivered ++
      [⟨msg.source, msg.type, msg.sequence_number, msg.payload⟩]) S = _
    rw [reliableFrom_append, htype, reliableFrom_single_ub]
    simp

theorem step_rb (stream : Uuid → Nat → Payload) (c : Core)
    (msg : InMessageFull) (node : Target)
    (hlk : lookupA c.targets msg.source = some node)
    (htype : msg.type = .reliable_broadcast)
    (hm : authenticMsg stream msg)
    (hc : coreInv stream c) :
    coreInv stream (c.on_receive_full msg) := by
  obtain ⟨hsnW, hos, hpay0⟩ := hm
  have hpay : msg.payload = stream msg.source msg.sequence_number := hpay0 htype
  have hmsg : msg = rbMsg stream msg.source msg.sequence_number :=
    authentic_rb_eq stream msg ⟨hsnW, hos, hpay0⟩ htype
  cases hs : node.sync with
  | none =>
    have hred : c.on_receive_full msg = c := by
      simp only [Core.on_receive_full, hlk, htype, hs]
    rw [hred]
    exact hc
  | some sy =>
    have hold := (hc msg.source).1 node hlk
    unfold targetInv at hold
    rw [hs] at hold
    obtain ⟨hleW, hlehi, hpend, s0, hs0, hrf⟩ := hold
    by_cases hta : (sy.acks.try_add msg.sequence_number).1 = true
    · have hhige : sy.acks.hi ≤ (sy.acks.try_add msg.sequence_number).2.hi :=
        AckSet.try_add_hi_ge
      have hsnH : msg.sequence_number ≤ (sy.acks.try_add msg.sequence_number).2.hi :=
        AckSet.try_add_hi_ge_sn hta
      by_cases heq : msg.sequence_number = add1 sy.last_executed_message
      · -- in-order delivery followed by replay
        have hW : sy.last_executed_message + 1 < W32 := by
          rcases Nat.lt_or_ge (sy.last_executed_message + 1) W32 with h | h
          · exact h
          · exfalso
            have hEq : sy.last_executed_message + 1 = W32 := by omega
            have h0 : add1 sy.last_executed_message = 0 := by
              unfold add1
              rw [hEq]
              exact Nat.mod_self _
            have hsn0 : msg.sequence_number = 0 := by rw [heq, h0]
            have hca := AckSet.try_add_can_add hta
            rw [hsn0] at hca
            have h32 : (32 : Nat) + 1 ≤ W32 := by norm_num [W32]
            have hbig : ackWindow = 32 := rfl
            rw [hbig] at hca
            omega
        have hsn : msg.sequence_number = sy.last_executed_message + 1 := by
          rw [heq]
          exact add1_lt hW
        have hred : c.on_receive_full msg =
            (replayLoop
              ((c.acknowledgeMsg msg).deliver msg.source .reliable_broadcast
                msg.sequence_number (stream msg.source msg.sequence_number))
              msg.sequence_number node.pending).1.setTarget msg.source
              ⟨some ⟨(replayLoop
                        ((c.acknowledgeMsg msg).deliver msg.source
                          .reliable_broadcast msg.sequence_number
                          (stream msg.source msg.sequence_number))
                        msg.sequence_number node.pending).2.1,
                     (sy.acks.try_add msg.sequence_number).2⟩,
               (replayLoop
                  ((c.acknowledgeMsg msg).deliver msg.source .reliable_broadcast
                    msg.sequence_number (stream msg.source msg.sequence_number))
                  msg.sequence_number node.pending).2.2⟩ := by
          simp only [Core.on_receive_full, hlk, htype, hs, hpay]
          rw [if_pos hta, if_pos heq]
        rw [hred]
        set c1 := (c.acknowledgeMsg msg).deliver msg.source .reliable_broadcast
            msg.sequence_number (stream msg.source msg.sequence_number) with hc1
        have hc1d : c1.delivered
            = c.delivered ++ [rbEv stream msg.source msg.sequence_number] := by
          rw [hc1, rbEv]
          show ((c.acknowledgeMsg msg).delivered ++ _) = _
          rw [ackMsg_delivered]
        have hc1t : c1.targets = c.targets := by
          rw [hc1]
          show (c.acknowledgeMsg msg).targets = c.targets
          exact ackMsg_targets c msg
        obtain ⟨n, hr1, hr2, hr3, hr4, hr5, hr6⟩ :=
          replayLoop_spec stream msg.source
            ((sy.acks.try_add msg.sequence_number).2.hi)
            node.pending c1 msg.sequence_number
            (fun p hp => ⟨(hpend p hp).1, le_trans (hpend p hp).2 hhige⟩)
            hsnW hsnH
        have hdel :
            ((replayLoop c1 msg.sequence_number node.pending).1.setTarget
              msg.source
              ⟨some ⟨(replayLoop c1 msg.sequence_number node.pending).2.1,
                     (sy.acks.try_add msg.sequence_number).2⟩,
               (replayLoop c1 msg.sequence_number node.pending).2.2⟩).delivered
            = c.delivered ++
                (seqR msg.sequence_number (n + 1)).map
                  (rbEv stream msg.source) := by
          show (replayLoop c1 msg.sequence_number node.pending).1.delivered = _
          rw [hr4, hc1d]
          have hcons : seqR msg.sequence_number (n + 1)
              = msg.sequence_number :: seqR (msg.sequence_number + 1) n := rfl
          rw [hcons]
          simp
        refine coreInv_upd stream c msg.source
          ⟨some ⟨(replayLoop c1 msg.sequence_number node.pending).2.1,
                 (sy.acks.try_add msg.sequence_number).2⟩,
           (replayLoop c1 msg.sequence_number node.pending).2.2⟩
          node (seqR msg.sequence_number (n + 1)) hlk hc _ ?_ hdel ?_
        · simp only [Core.setTarget]
          rw [hr6, hc1t]
        · unfold targetInv
          simp only
          refine ⟨?_, ?_, hr5, s0, ?_, ?_⟩
          · rw [hr1]; exact hr2
          · rw [hr1]; exact hr3
          · omega
          · have harith : msg.sequence_number + n - s0
                = (sy.last_executed_message - s0) + (n + 1) := by omega
            have ha2 : s0 + 1 + (sy.last_executed_message - s0)
                = msg.sequence_number := by omega
            rw [hdel, reliableFrom_append, hrf,
              reliableFrom_events_self stream msg.source, hr1, harith]
            conv_rhs => rw [seqR_append]
            rw [ha2, List.map_append]
      · by_cases hgt : add1 sy.last_executed_message < msg.sequence_number
        · -- future message: goes to the reorder buffer
          have hsn1 : 1 ≤ msg.sequence_number := by omega
          have hred : c.on_receive_full msg =
              (c.acknowledgeMsg msg).setTarget msg.source
                (addToPendingFull
                  ⟨some ⟨sy.last_executed_message,
                         (sy.acks.try_add msg.sequence_number).2⟩,
                   node.pending⟩ msg).1 := by
            simp only [Core.on_receive_full, hlk, htype, hs]
            rw [if_pos hta, if_neg heq, if_pos hgt]
          rw [hred]
          have hdel :
              ((c.acknowledgeMsg msg).setTarget msg.source
                (addToPendingFull
                  ⟨some ⟨sy.last_executed_message,
                         (sy.acks.try_add msg.sequence_number).2⟩,
                   node.pending⟩ msg).1).delivered = c.delivered ++ [] := by
            show (c.acknowledgeMsg msg).delivered = _
            rw [ackMsg_delivered]
            simp
          refine coreInv_upd stream c msg.source
            (addToPendingFull
              ⟨some ⟨sy.last_executed_message,
                     (sy.acks.try_add msg.sequence_number).2⟩,
               node.pending⟩ msg).1
            node [] hlk hc _ ?_ hdel ?_
          · show setA (c.acknowledgeMsg msg).targets _ _ = setA c.targets _ _
            rw [ackMsg_targets]
          · -- target invariant for the pending-extended node
            have hpe : ∀ q ∈ (addToPendingFull
                ⟨some ⟨sy.last_executed_message,
                       (sy.acks.try_add msg.sequence_number).2⟩,
                 node.pending⟩ msg).1.pending,
                entryInv stream msg.source q ∧
                  q.1 ≤ (sy.acks.try_add msg.sequence_number).2.hi := by
              intro q hq
              unfold addToPendingFull at hq
              cases hfind : lookupA node.pending msg.sequence_number with
              | some pm =>
                rw [hfind] at hq
                simp only at hq
                rcases mem_setA _ _ _ _ hq with hq1 | hq1
                · have hmem := lookupA_mem _ _ _ hfind
                  obtain ⟨he1, he2, he3⟩ := (hpend _ hmem).1
                  simp only at he3
                  have hupd : pm.update_payload 0 msg.payload = pm := by
                    rw [he3, hpay]
                    unfold PendingMessage.update_payload PendingMessage.ofFull
                    simp only [rbMsg]
                    congr 1
                    exact writeAt_cover _ _ (by simp)
                  subst hq1
                  refine ⟨⟨hsn1, hsnW, ?_⟩, hsnH⟩
                  simp only
                  rw [hupd, he3]
                · exact ⟨(hpend _ hq1).1, le_trans (hpend _ hq1).2 hhige⟩
              | none =>
                rw [hfind] at hq
                simp only at hq
                rcases mem_insertPendingSorted _ _ _ _ hq with hq1 | hq1
                · subst hq1
                  exact ⟨⟨hsn1, hsnW, by rw [← hmsg]⟩, hsnH⟩
                · exact ⟨(hpend _ hq1).1, le_trans (hpend _ hq1).2 hhige⟩
            have hsync : (addToPendingFull
                ⟨some ⟨sy.last_executed_message,
                       (sy.acks.try_add msg.sequence_number).2⟩,
                 node.pending⟩ msg).1.sync
                = some ⟨sy.last_executed_message,
                        (sy.acks.try_add msg.sequence_number).2⟩ := by
              unfold addToPendingFull
              cases hfind : lookupA node.pending msg.sequence_number <;> rfl
            unfold targetInv
            rw [hsync]
            refine ⟨hleW, le_trans hlehi hhige, hpe, s0, hs0, ?_⟩
            rw [hdel]
            simp only [List.append_nil]
            exact hrf
        · -- stale or duplicate-in-window: ack-set update only
          have hred : c.on_receive_full msg =
              (c.acknowledgeMsg msg).setTarget msg.source
                ⟨some ⟨sy.last_executed_message,
                       (sy.acks.try_add msg.sequence_number).2⟩,
                 node.pending⟩ := by
            simp only [Core.on_receive_full, hlk, htype, hs]
            rw [if_pos hta, if_neg heq, if_neg hgt]
          rw [hred]
          refine coreInv_upd stream c msg.source
            ⟨some ⟨sy.last_executed_message,
                   (sy.acks.try_add msg.sequence_number).2⟩,
             node.pending⟩
            node [] hlk hc _ ?_ ?_ ?_
          · show setA (c.acknowledgeMsg msg).targets _ _ = setA c.targets _ _
            rw [ackMsg_targets]
          · show (c.acknowledgeMsg msg).delivered = _
            rw [ackMsg_delivered]
            simp
          · unfold targetInv
            simp only
            refine ⟨hleW, le_trans hlehi hhige,
              fun p hp => ⟨(hpend p hp).1, le_trans (hpend p hp).2 hhige⟩,
              s0, hs0, ?_⟩
            show reliableFrom (c.acknowledgeMsg msg).delivered _ = _
            rw [ackMsg_delivered]
            exact hrf
    · -- try_add refused: the ack set is written back unchanged
      have htaF : (sy.acks.try_add msg.sequence_number).1 = false := by
        cases hb : (sy.acks.try_add msg.sequence_number).1
        · rfl
        · exact absurd hb hta
      have hta2 : (sy.acks.try_add msg.sequence_number).2 = sy.acks :=
        AckSet.try_add_false htaF
      have hred : c.on_receive_full msg =
          c.setTarget msg.source
            ⟨some ⟨sy.last_executed_message,
                   (sy.acks.try_add msg.sequence_number).2⟩,
             node.pending⟩ := by
        simp only [Core.on_receive_full, hlk, htype, hs]
        rw [if_neg hta]
      rw [hred]
      refine coreInv_upd stream c msg.source
        ⟨some ⟨sy.last_executed_message,
               (sy.acks.try_add msg.sequence_number).2⟩,
         node.pending⟩
        node [] hlk hc _ rfl (by simp [Core.setTarget]) ?_
      unfold targetInv
      rw [hta2]
      exact ⟨hleW, hlehi, hpend, s0, hs0, hrf⟩

theorem step_coreInv (stream : Uuid → Nat → Payload) (c : Core)
    (msg : InMessageFull) (hm : authenticMsg stream msg)
    (hc : coreInv stream c) : coreInv stream (c.on_receive_full msg) := by
  cases hlk : lookupA c.targets msg.source with
  | none =>
    have hred : c.on_receive_full msg = c := by
      simp only [Core.on_receive_full, hlk]
    rw [hred]
    exact hc
  | some node =>
    cases htype : msg.type with
    | reliable_broadcast => exact step_rb stream c msg node hlk htype hm hc
    | unreliable_broadcast => exact step_ub stream c msg node hlk htype hc
    | syn => exact step_syn stream c msg node hlk htype hc

/-- Sequential processing of a trace of fully assembled messages by
`on_receive_full`. -/
def processTrace (c : Core) (trace : List InMessageFull) : Core :=
  trace.foldl Core.on_receive_full c

theorem processTrace_inv (stream : Uuid → Nat → Payload) :
    ∀ (trace : List InMessageFull) (c : Core),
      coreInv stream c → (∀ m ∈ trace, authenticMsg stream m) →
      coreInv stream (processTrace c trace) := by
  intro trace
  induction trace with
  | nil => intro c hc _; exact hc
  | cons m rest ih =>
    intro c hc htr
    exact ih _ (step_coreInv stream c m (htr m (List.mem_cons_self _ _)) hc)
      (fun m' hm' => htr m' (List.mem_cons_of_mem _ hm'))

/-- C1: starting from a core whose targets are all freshly constructed
and whose delivery log is empty, after processing any interleaving of
authentic full messages, for every sender `S`: if the Target of `S` has
an established sync, the reliable-broadcast payloads delivered with
source `S` are exactly the contiguous run of `S`'s stream ending at
`sync.last_executed` (so they form the contiguous prefix starting just
past the initial `last_executed` recorded when the syn arrived), and no
sequence number is delivered twice; without an established sync (or
without a Target) nothing reliable from `S` is delivered. -/
theorem C1_reliable_prefix (stream : Uuid → Nat → Payload) (c0 : Core)
    (trace : List InMessageFull)
    (h0 : ∀ p ∈ c0.targets, p.2 = Target.new)
    (hd : c0.delivered = [])
    (htr : ∀ m ∈ trace, authenticMsg stream m) :
    ∀ S : Uuid,
      (∀ node sy, lookupA (processTrace c0 trace).targets S = some node →
        node.sync = some sy →
        ∃ s0, s0 ≤ sy.last_executed_message ∧
          reliableFrom (processTrace c0 trace).delivered S
            = (seqR (s0 + 1) (sy.last_executed_message - s0)).map
                (fun n => (n, stream S n)) ∧
          ((reliableFrom (processTrace c0 trace).delivered S).map Prod.fst).Nodup) ∧
      (∀ node, lookupA (processTrace c0 trace).targets S = some node →
        node.sync = none →
        reliableFrom (processTrace c0 trace).delivered S = []) ∧
      (lookupA (processTrace c0 trace).targets S = none →
        reliableFrom (processTrace c0 trace).delivered S = []) := by
  have hinv0 : coreInv stream c0 := by
    intro S
    constructor
    · intro nd hnd
      have hmem := lookupA_mem _ _ _ hnd
      have hT := h0 _ hmem
      simp only at hT
      subst hT
      unfold targetInv
      exact ⟨rfl, by rw [hd]; rfl⟩
    · intro _
      rw [hd]
      rfl
  have hinv := processTrace_inv stream trace c0 hinv0 htr
  intro S
  refine ⟨?_, ?_, ?_⟩
  · intro node sy hnd hsy
    have ht := (hinv S).1 node hnd
    unfold targetInv at ht
    rw [hsy] at ht
    obtain ⟨h1, h2, h3, s0, hs0, hrf⟩ := ht
    refine ⟨s0, hs0, hrf, ?_⟩
    rw [hrf, List.map_map]
    have hcomp : (Prod.fst ∘ fun n : Nat => (n, stream S n))
        = fun n : Nat => n := rfl
    rw [hcomp]
    have hid : List.map (fun n : Nat => n)
        (seqR (s0 + 1) (sy.last_executed_message - s0))
        = seqR (s0 + 1) (sy.last_executed_message - s0) := List.map_id' _
    rw [hid]
    exact seqR_nodup _ _
  · intro node hnd hn
    have ht := (hinv S).1 node hnd
    unfold targetInv at ht
    rw [hn] at ht
    exact ht.2
  · intro hnone
    exact (hinv S).2 hnone

/-- A concrete two-party stream for the C1 witness. -/
def stream0 : Uuid → Nat → Payload := fun S n => [S, n]

/-- A fresh receiver knowing sender `7`. -/
def c00 : Core := ⟨1, 0, 0, [], [], none, [(7, Target.new)], [], [], []⟩

/-- A syn followed by reliable broadcasts 1, 3, 2 (out of order). -/
def trace0 : List InMessageFull :=
  [⟨7, .syn, 1, 0, []⟩,
   ⟨7, .reliable_broadcast, 1, 2, [7, 1]⟩,
   ⟨7, .reliable_broadcast, 3, 2, [7, 3]⟩,
   ⟨7, .reliable_broadcast, 2, 2, [7, 2]⟩]

theorem C1_reliable_prefix_witness :
    ((∀ p ∈ c00.targets, p.2 = Target.new) ∧ c00.delivered = [] ∧
      (∀ m ∈ trace0, authenticMsg stream0 m)) ∧
    (∀ S : Uuid,
      (∀ node sy, lookupA (processTrace c00 trace0).targets S = some node →
        node.sync = some sy →
        ∃ s0, s0 ≤ sy.last_executed_message ∧
          reliableFrom (processTrace c00 trace0).delivered S
            = (seqR (s0 + 1) (sy.last_executed_message - s0)).map
                (fun n => (n, stream0 S n)) ∧
          ((reliableFrom (processTrace c00 trace0).delivered S).map
            Prod.fst).Nodup) ∧
      (∀ node, lookupA (processTrace c00 trace0).targets S = some node →
        node.sync = none →
        reliableFrom (processTrace c00 trace0).delivered S = []) ∧
      (lookupA (processTrace c00 trace0).targets S = none →
        reliableFrom (processTrace c00 trace0).delivered S = [])) :=
  ⟨⟨by decide, rfl, by decide⟩,
    C1_reliable_prefix stream0 c00 trace0 (by decide) rfl (by decide)⟩

end Club
